import Mathlib

/-!
Verification of the Expectation-Value Reckoning subsystem of pr-toolbox.

This file gives a shallow embedding of the frequency data model and its
transforms (src/pr_toolbox/quantum/results/frequencies.py), the Pauli mask
extractor (src/pr_toolbox/quantum/operators/paulis.py), and the four-level
expectation-value reckoner (src/pr_toolbox/quantum/results/reckoning.py),
together with theorems settling the specification claims.

Modelling conventions:
* Python dicts with integer outcome keys and numeric weights are modelled as
  association lists over keys in Nat and values in Rat, with lookup returning
  the first matching entry (Python dicts hold at most one entry per key).
* Python floats and complex numbers are modelled exactly, by rationals and
  pairs of rationals; square roots live in the real numbers.
* The qiskit collaborators (Counts, QuasiDistribution and the operator
  normalizer) are not part of the repository source; their behavior at the
  boundary is modelled from the specification (sections 3, 4.1 and 6).
-/

/-! ## Frequency dictionaries (Python dict with outcome keys and numeric values) -/

/-- A Python dict mapping outcomes (non-negative ints) to numeric weights,
as an association list.  A dict built by Python has at most one entry per
key; lookups below return the first matching entry. -/
abbrev FreqDict := List (ℕ × ℚ)

/-- Dict lookup with the defaultdict default of 0 (used by map_dict). -/
def dictGet : FreqDict → ℕ → ℚ
  | [], _ => 0
  | (k, v) :: rest, k' => if k = k' then v else dictGet rest k'

/-- Python `key in dict`. -/
def dictHasKey : FreqDict → ℕ → Bool
  | [], _ => false
  | (k, _) :: rest, k' => k == k' || dictHasKey rest k'

/-- Python `dict[key] = value`: replace the (first) entry at the key, or
append a new entry. -/
def dictSet : FreqDict → ℕ → ℚ → FreqDict
  | [], k', v' => [(k', v')]
  | (k, v) :: rest, k', v' =>
      if k = k' then (k', v') :: rest else (k, v) :: dictSet rest k' v'

/-- `frequencies_dict[readout] += freq` on a `defaultdict(lambda: 0)`. -/
def dictAdd (d : FreqDict) (k : ℕ) (v : ℚ) : FreqDict :=
  dictSet d k (dictGet d k + v)

/-- Sum of all values of the dict, e.g. Python `sum(d.values())`. -/
def dictTotal (d : FreqDict) : ℚ := (d.map Prod.snd).sum

/-- Sum of the values of the entries whose key satisfies a predicate. -/
def dictSumIf (d : FreqDict) (p : ℕ → Bool) : ℚ :=
  ((d.filter fun kv => p kv.1).map Prod.snd).sum

/-- Python `==` on two dicts: the same keys are present and each present key
holds the same value (comparing values across the int/float divide, as
Python does). -/
def dictEquiv (d₁ d₂ : FreqDict) : Prop :=
  (∀ k, dictHasKey d₁ k = dictHasKey d₂ k) ∧ ∀ k, dictGet d₁ k = dictGet d₂ k

@[simp] theorem dictGet_nil (k : ℕ) : dictGet [] k = 0 := rfl

@[simp] theorem dictGet_cons (k v : _) (rest : FreqDict) (k' : ℕ) :
    dictGet ((k, v) :: rest) k' = if k = k' then v else dictGet rest k' := rfl

@[simp] theorem dictHasKey_nil (k : ℕ) : dictHasKey [] k = false := rfl

@[simp] theorem dictHasKey_cons (k : ℕ) (v : ℚ) (rest : FreqDict) (k' : ℕ) :
    dictHasKey ((k, v) :: rest) k' = (k == k' || dictHasKey rest k') := rfl

@[simp] theorem dictSumIf_nil (p : ℕ → Bool) : dictSumIf [] p = 0 := rfl

theorem dictSumIf_cons (k : ℕ) (v : ℚ) (rest : FreqDict) (p : ℕ → Bool) :
    dictSumIf ((k, v) :: rest) p
      = (if p k then v else 0) + dictSumIf rest p := by
  by_cases h : p k <;> simp [dictSumIf, List.filter_cons, h]

theorem dictGet_dictSet (d : FreqDict) (k : ℕ) (v : ℚ) (k' : ℕ) :
    dictGet (dictSet d k v) k' = if k = k' then v else dictGet d k' := by
  induction d with
  | nil => simp only [dictSet, dictGet_cons, dictGet_nil]
  | cons kv rest ih =>
      obtain ⟨k₀, v₀⟩ := kv
      simp only [dictSet]
      by_cases h₀ : k₀ = k
      · subst h₀
        simp only [if_pos rfl, dictGet_cons]
        by_cases h : k₀ = k' <;> simp [h]
      · simp only [if_neg h₀, dictGet_cons, ih]
        by_cases h : k₀ = k'
        · have hk : ¬k = k' := fun hh => h₀ (h.trans hh.symm)
          simp [h, hk]
        · simp [h]

theorem dictHasKey_dictSet (d : FreqDict) (k : ℕ) (v : ℚ) (k' : ℕ) :
    dictHasKey (dictSet d k v) k' = (k == k' || dictHasKey d k') := by
  induction d with
  | nil => simp [dictSet]
  | cons kv rest ih =>
      obtain ⟨k₀, v₀⟩ := kv
      simp only [dictSet]
      by_cases h₀ : k₀ = k
      · subst h₀
        by_cases h : k₀ = k' <;> simp [h]
      · simp only [if_neg h₀, dictHasKey_cons, ih]
        cases h₁ : (k₀ == k') <;> cases h₂ : (k == k') <;> simp [h₁, h₂]

theorem dictGet_dictAdd (d : FreqDict) (k : ℕ) (v : ℚ) (k' : ℕ) :
    dictGet (dictAdd d k v) k' = dictGet d k' + if k = k' then v else 0 := by
  unfold dictAdd
  rw [dictGet_dictSet]
  by_cases h : k = k' <;> simp [h]

theorem dictHasKey_dictAdd (d : FreqDict) (k : ℕ) (v : ℚ) (k' : ℕ) :
    dictHasKey (dictAdd d k v) k' = (k == k' || dictHasKey d k') :=
  dictHasKey_dictSet ..

theorem dictAdd_cons_ne (k₀ : ℕ) (v₀ : ℚ) (rest : FreqDict) (k : ℕ) (v : ℚ)
    (h₀ : ¬k₀ = k) :
    dictAdd ((k₀, v₀) :: rest) k v = (k₀, v₀) :: dictAdd rest k v := by
  simp [dictAdd, dictGet_cons, dictSet, h₀]

theorem dictAdd_cons_eq (k₀ : ℕ) (v₀ : ℚ) (rest : FreqDict) (v : ℚ) :
    dictAdd ((k₀, v₀) :: rest) k₀ v = (k₀, v₀ + v) :: rest := by
  simp [dictAdd, dictGet_cons, dictSet]

theorem dictSumIf_dictAdd (d : FreqDict) (k : ℕ) (v : ℚ) (p : ℕ → Bool) :
    dictSumIf (dictAdd d k v) p = dictSumIf d p + if p k then v else 0 := by
  induction d with
  | nil => by_cases h : p k <;> simp [dictAdd, dictSet, dictSumIf_cons, h]
  | cons kv rest ih =>
      obtain ⟨k₀, v₀⟩ := kv
      by_cases h₀ : k₀ = k
      · subst h₀
        rw [dictAdd_cons_eq, dictSumIf_cons, dictSumIf_cons]
        by_cases h : p k₀
        · simp only [if_pos h]
          ring
        · simp [h]
      · rw [dictAdd_cons_ne _ _ _ _ _ h₀, dictSumIf_cons, dictSumIf_cons, ih]
        ring

theorem dictTotal_dictAdd (d : FreqDict) (k : ℕ) (v : ℚ) :
    dictTotal (dictAdd d k v) = dictTotal d + v := by
  induction d with
  | nil => simp [dictAdd, dictSet, dictTotal]
  | cons kv rest ih =>
      obtain ⟨k₀, v₀⟩ := kv
      by_cases h₀ : k₀ = k
      · subst h₀
        rw [dictAdd_cons_eq]
        simp only [dictTotal, List.map_cons, List.sum_cons]
        ring
      · rw [dictAdd_cons_ne _ _ _ _ _ h₀]
        simp only [dictTotal, List.map_cons, List.sum_cons] at ih ⊢
        rw [ih]
        ring

/-! ## map_frequencies and the bit-level transforms (frequencies.py) -/

/-- The dict instance of map_frequencies (map_dict in frequencies.py):
rebuild the dict entry by entry into a `defaultdict(lambda: 0)`,
accumulating with `+=`, so keys colliding under the mapper have their
weights summed.  The runtime checks that keys are ints and values are
numeric are enforced here by the Lean types (their error path is modelled
at the validation boundary below). -/
def map_dict (frequencies : FreqDict) (mapper : ℕ → ℕ) : FreqDict :=
  frequencies.foldl (fun acc kv => dictAdd acc (mapper kv.1) kv.2) []

theorem foldl_dictAdd_get (d : FreqDict) (mapper : ℕ → ℕ) (acc : FreqDict) (y : ℕ) :
    dictGet (d.foldl (fun acc kv => dictAdd acc (mapper kv.1) kv.2) acc) y
      = dictGet acc y + dictSumIf d (fun x => mapper x == y) := by
  induction d generalizing acc with
  | nil => simp [dictSumIf]
  | cons kv rest ih =>
      obtain ⟨k, v⟩ := kv
      rw [List.foldl_cons, ih, dictGet_dictAdd, dictSumIf_cons]
      by_cases h : mapper k = y
      · simp [h]
        ring
      · simp [h]

theorem foldl_dictAdd_hasKey (d : FreqDict) (mapper : ℕ → ℕ) (acc : FreqDict) (y : ℕ) :
    dictHasKey (d.foldl (fun acc kv => dictAdd acc (mapper kv.1) kv.2) acc) y
      = (dictHasKey acc y || d.any fun kv => mapper kv.1 == y) := by
  induction d generalizing acc with
  | nil => simp
  | cons kv rest ih =>
      obtain ⟨k, v⟩ := kv
      rw [List.foldl_cons, ih, dictHasKey_dictAdd, List.any_cons]
      cases h₁ : (mapper k == y) <;> simp [h₁]

theorem foldl_dictAdd_total (d : FreqDict) (mapper : ℕ → ℕ) (acc : FreqDict) :
    dictTotal (d.foldl (fun acc kv => dictAdd acc (mapper kv.1) kv.2) acc)
      = dictTotal acc + dictTotal d := by
  induction d generalizing acc with
  | nil => simp [dictTotal]
  | cons kv rest ih =>
      obtain ⟨k, v⟩ := kv
      rw [List.foldl_cons, ih, dictTotal_dictAdd]
      simp only [dictTotal, List.map_cons, List.sum_cons]
      ring

theorem dictGet_map_dict (d : FreqDict) (mapper : ℕ → ℕ) (y : ℕ) :
    dictGet (map_dict d mapper) y = dictSumIf d (fun x => mapper x == y) := by
  unfold map_dict
  rw [foldl_dictAdd_get]
  simp

theorem dictHasKey_map_dict (d : FreqDict) (mapper : ℕ → ℕ) (y : ℕ) :
    dictHasKey (map_dict d mapper) y = (d.any fun kv => mapper kv.1 == y) := by
  unfold map_dict
  rw [foldl_dictAdd_hasKey]
  simp

theorem dictTotal_map_dict (d : FreqDict) (mapper : ℕ → ℕ) :
    dictTotal (map_dict d mapper) = dictTotal d := by
  unfold map_dict
  rw [foldl_dictAdd_total]
  simp [dictTotal]

/-! ## The qiskit frequency containers (external collaborators, spec section 3) -/

/-- ExactCounts: the qiskit Counts container seen through its integer
outcome view (Counts.int_outcomes), as the reckoning code uses it.
Modelled from the spec: the container itself is a dict subclass and does
not enforce integrality of its values, so values are kept rational; the
ExactCounts variant of the spec is the restriction to non-negative integer
values. -/
structure Counts where
  data : FreqDict

/-- Counts.shots(): the sum of all stored counts. -/
def Counts.shots (c : Counts) : ℚ := dictTotal c.data

/-- QuasiProbability: the qiskit QuasiDistribution container.  Modelled
from the spec: an outcome-to-real-weight mapping (weights may be negative
and need not sum to 1) carrying optional shots and stddev_upper_bound
metadata. -/
structure QuasiDist where
  dist : FreqDict
  shots : Option ℚ
  stddev_upper_bound : Option ℝ

/-- The Counts instance of map_frequencies (map_counts): map the integer
outcome view, then rebuild a Counts. -/
def map_counts (counts : Counts) (mapper : ℕ → ℕ) : Counts :=
  ⟨map_dict counts.data mapper⟩

/-- The QuasiDistribution instance of map_frequencies (map_quasi_dist):
map the underlying dict, preserving shots and stddev_upper_bound. -/
def map_quasi_dist (quasi_dist : QuasiDist) (mapper : ℕ → ℕ) : QuasiDist :=
  ⟨map_dict quasi_dist.dist mapper, quasi_dist.shots, quasi_dist.stddev_upper_bound⟩

/-- bitflip_frequencies at the dict level: map_frequencies with
`lambda readout: readout ^ bitflips`. -/
def bitflip_frequencies (frequencies : FreqDict) (bitflips : ℕ) : FreqDict :=
  map_dict frequencies (fun readout => readout ^^^ bitflips)

/-- bitmask_frequencies at the dict level: map_frequencies with
`lambda readout: readout & bitmask`. -/
def bitmask_frequencies (frequencies : FreqDict) (bitmask : ℕ) : FreqDict :=
  map_dict frequencies (fun readout => readout &&& bitmask)

/-! ## Pauli operators (paulis.py and the qiskit Pauli data model) -/

/-- A single-qubit Pauli operator. -/
inductive SQPauli where
  | I : SQPauli
  | X : SQPauli
  | Y : SQPauli
  | Z : SQPauli
deriving DecidableEq, Repr

/-- The z bit of the qiskit symplectic representation: set for Z and Y. -/
def SQPauli.z : SQPauli → Bool
  | .Z => true
  | .Y => true
  | _ => false

/-- The x bit of the qiskit symplectic representation: set for X and Y. -/
def SQPauli.x : SQPauli → Bool
  | .X => true
  | .Y => true
  | _ => false

/-- A multi-qubit Pauli term (qiskit Pauli): one single-qubit operator per
qubit, `ops[i]` acting on qubit i (qubit i corresponds to outcome bit i),
plus a group phase exponent: the coefficient of the term is
`(-i) ^ phase`. -/
structure PauliTerm where
  ops : List SQPauli
  phase : ℕ
deriving DecidableEq, Repr

instance : Inhabited PauliTerm := ⟨⟨[], 0⟩⟩

/-- `pauli.z | pauli.x` of pauli_integer_mask: the boolean array with a one
where there are Paulis and a zero where there are identities. -/
def pauliMaskBits (pauli : PauliTerm) : List Bool :=
  pauli.ops.map fun op => op.z || op.x

/-- Value of a bit list read little-endian (bit j weighs 2 ^ j). -/
def bitsToNatLE : List Bool → ℕ
  | [] => 0
  | b :: rest => b.toNat + 2 * bitsToNatLE rest

/-- `numpy.packbits(bits, bitorder="little").tolist()`: chunk the bit array
into groups of eight (the last group zero-padded) and pack each group into
one byte, little-endian within the byte. -/
def packbitsLittle : List Bool → List ℕ
  | [] => []
  | b :: rest => bitsToNatLE ((b :: rest).take 8) :: packbitsLittle ((b :: rest).drop 8)
termination_by bits => bits.length
decreasing_by simp; omega

/-- `reduce(lambda value, element: (value << 8) | element, bytes)`: Python
reduce with no initializer starts from the first element.  (Python raises
on an empty list; qiskit Pauli terms have at least one qubit, and on an
empty byte list we return 0.) -/
def reduceShiftOr : List ℕ → ℕ
  | [] => 0
  | b :: rest => rest.foldl (fun value element => (value <<< 8) ||| element) b

/-- pauli_integer_mask from paulis.py: an integer representation of the
binary string with a one where there are Paulis and a zero where there are
identities; the packed bytes are combined most-significant first (they are
traversed with `reversed`). -/
def pauli_integer_mask (pauli : PauliTerm) : ℕ :=
  reduceShiftOr (packbitsLittle (pauliMaskBits pauli)).reverse

/-! ## Exact complex numbers (Python complex arithmetic, modelled exactly) -/

/-- A complex number with rational real and imaginary parts.  Python
complex arithmetic on the values appearing in this subsystem (products and
sums of units and exact weights) is exact, so this model loses nothing. -/
@[ext]
structure CQ where
  re : ℚ
  im : ℚ
deriving DecidableEq, Repr

namespace CQ

def add (a b : CQ) : CQ := ⟨a.re + b.re, a.im + b.im⟩

def mul (a b : CQ) : CQ := ⟨a.re * b.re - a.im * b.im, a.re * b.im + a.im * b.re⟩

def neg (a : CQ) : CQ := ⟨-a.re, -a.im⟩

instance : Add CQ := ⟨add⟩
instance : Mul CQ := ⟨mul⟩
instance : Neg CQ := ⟨neg⟩
instance : Zero CQ := ⟨⟨0, 0⟩⟩
instance : One CQ := ⟨⟨1, 0⟩⟩

/-- Embedding of a real (rational) scalar. -/
def ofRat (q : ℚ) : CQ := ⟨q, 0⟩

/-- Squared magnitude: `coeff.real ** 2 + coeff.imag ** 2`. -/
def normSq (a : CQ) : ℚ := a.re ^ 2 + a.im ^ 2

@[simp] theorem add_def (a b : CQ) : a + b = ⟨a.re + b.re, a.im + b.im⟩ := rfl

@[simp] theorem mul_def (a b : CQ) :
    a * b = ⟨a.re * b.re - a.im * b.im, a.re * b.im + a.im * b.re⟩ := rfl

@[simp] theorem zero_def : (0 : CQ) = ⟨0, 0⟩ := rfl

@[simp] theorem one_def : (1 : CQ) = ⟨1, 0⟩ := rfl

theorem add_comm (a b : CQ) : a + b = b + a := by
  simp [CQ.ext_iff]
  constructor <;> ring

theorem add_assoc (a b c : CQ) : a + b + c = a + (b + c) := by
  simp [CQ.ext_iff]
  constructor <;> ring

theorem zero_add (a : CQ) : 0 + a = a := by
  simp [CQ.ext_iff]

theorem add_zero (a : CQ) : a + 0 = a := by
  simp [CQ.ext_iff]

instance : AddCommMonoid CQ where
  add_assoc := add_assoc
  zero_add := zero_add
  add_zero := add_zero
  add_comm := add_comm
  nsmul := nsmulRec

end CQ

/-- The negative imaginary unit `-1j`. -/
def negI : CQ := ⟨0, -1⟩

/-- `(-1j) ** phase` for a natural exponent (Python evaluates integer
powers of complex units exactly, by repeated multiplication). -/
def negIPow : ℕ → CQ
  | 0 => 1
  | n + 1 => negIPow n * negI

/-! ## The expectation-value reckoner: internal computations (reckoning.py) -/

/-- Number of ones in the binary expansion. -/
def popCount (n : ℕ) : ℕ :=
  if h : n = 0 then 0 else n % 2 + popCount (n / 2)
termination_by n
decreasing_by exact Nat.div_lt_self (Nat.pos_of_ne_zero h) one_lt_two

/-- Modelled from the spec: `parity_bit` from the module pr_toolbox.binary,
whose source file is not in the tree (only its unit tests are).  Spec
section 4.3 Level 0: parity(o) = popcount(o) mod 2; with even=True the
function returns that parity bit, with even=False its complement (matching
the unit tests in test/unit/test_binary.py). -/
def parity_bit (integer : ℕ) (even : Bool) : ℕ :=
  if even then popCount integer % 2 else (popCount integer + 1) % 2

/-- The accumulation loop of _reckon_frequencies:
`expval += observation * freq` over the items, starting from 0.0, with
`observation = (-1) ** parity_bit(readout, even=True)`. -/
def _reckon_frequencies_expval (frequencies : QuasiDist) : ℚ :=
  frequencies.dist.foldl
    (fun expval kv => expval + (-1 : ℚ) ^ parity_bit kv.1 true * kv.2) 0

/-- `variance = 1 - expval ** 2` of _reckon_frequencies (the argument given
to sqrt). -/
def _reckon_frequencies_variance (frequencies : QuasiDist) : ℚ :=
  1 - _reckon_frequencies_expval frequencies ^ 2

/-- _reckon_frequencies: expectation value and std error
`sqrt(1 - expval ** 2)` of the (implicitly fully diagonal) observable. -/
noncomputable def _reckon_frequencies (frequencies : QuasiDist) : ℚ × ℝ :=
  (_reckon_frequencies_expval frequencies,
    Real.sqrt (_reckon_frequencies_variance frequencies))

/-- _reckon_pauli: mask the frequencies with the Pauli integer mask
(bitmask_frequencies on the QuasiDistribution), reckon them, and scale the
expectation value by `(-1j) ** pauli.phase`; the std error passes through. -/
noncomputable def _reckon_pauli (frequencies : QuasiDist) (pauli : PauliTerm) : CQ × ℝ :=
  let mask := pauli_integer_mask pauli
  let masked := map_quasi_dist frequencies fun readout => readout &&& mask
  let coeff := negIPow pauli.phase
  let r := _reckon_frequencies masked
  (coeff * CQ.ofRat r.1, r.2)

/-- A qiskit SparsePauliOp: a list of Pauli terms (operator.paulis) and the
matching list of complex coefficients (operator.coeffs). -/
structure SparsePauliOp where
  paulis : List PauliTerm
  coeffs : List CQ

/-- The argument of sqrt in _reckon_operator:
`dot(std_errors.real ** 2, coeffs.real ** 2 + coeffs.imag ** 2)`.
The numpy dot product of equal-length vectors is the sum of the pairwise
products (zip models it; numpy rejects unequal lengths). -/
noncomputable def _reckon_operator_variance (frequencies : QuasiDist)
    (operator : SparsePauliOp) : ℝ :=
  let std_errors := operator.paulis.map fun pauli => (_reckon_pauli frequencies pauli).2
  ((std_errors.zip operator.coeffs).map fun ec => ec.1 ^ 2 * (CQ.normSq ec.2 : ℝ)).sum

/-- _reckon_operator: per-term reckoning, then `expval = dot(values, coeffs)`
and `std_error = sqrt(dot(std_errors.real ** 2, |coeffs| ** 2))`. -/
noncomputable def _reckon_operator (frequencies : QuasiDist)
    (operator : SparsePauliOp) : CQ × ℝ :=
  let values := operator.paulis.map fun pauli => (_reckon_pauli frequencies pauli).1
  let expval := ((values.zip operator.coeffs).map fun vc => vc.1 * vc.2).sum
  (expval, Real.sqrt (_reckon_operator_variance frequencies operator))

/-- The argument of sqrt in _reckon: the loop `variance += error ** 2` over
the per-pair results, starting from 0.0. -/
noncomputable def _reckon_variance (frequencies_list : List QuasiDist)
    (operator_list : List SparsePauliOp) : ℝ :=
  let results := (frequencies_list.zip operator_list).map fun fo => _reckon_operator fo.1 fo.2
  results.foldl (fun variance ve => variance + ve.2 ^ 2) 0

/-- _reckon: loop over `zip(frequencies_list, operator_list)` accumulating
`expval += value` and `variance += error ** 2`, then take sqrt. -/
noncomputable def _reckon (frequencies_list : List QuasiDist)
    (operator_list : List SparsePauliOp) : CQ × ℝ :=
  let results := (frequencies_list.zip operator_list).map fun fo => _reckon_operator fo.1 fo.2
  let expval := results.foldl (fun expval ve => expval + ve.1) 0
  (expval, Real.sqrt (_reckon_variance frequencies_list operator_list))

/-! ## Generic fold and zip bridges -/

theorem foldl_add_eq_sum {M : Type} [AddCommMonoid M] {α : Type} (l : List α)
    (g : α → M) (init : M) :
    l.foldl (fun acc x => acc + g x) init = init + (l.map g).sum := by
  induction l generalizing init with
  | nil => simp
  | cons a t ih =>
      rw [List.foldl_cons, ih, List.map_cons, List.sum_cons, add_assoc]

theorem zip_map_sum_eq_range_sum {M : Type} [AddCommMonoid M] {α β : Type}
    (l₁ : List α) (l₂ : List β) (g : α → β → M) (d₁ : α) (d₂ : β)
    (h : l₁.length = l₂.length) :
    ((l₁.zip l₂).map fun p => g p.1 p.2).sum
      = ∑ k ∈ Finset.range l₁.length, g (l₁.getD k d₁) (l₂.getD k d₂) := by
  induction l₁ generalizing l₂ with
  | nil => simp
  | cons a t ih =>
      cases l₂ with
      | nil => simp at h
      | cons b t₂ =>
          simp only [List.zip_cons_cons, List.map_cons, List.sum_cons,
            List.length_cons]
          rw [Finset.sum_range_succ']
          simp only [List.getD_cons_succ, List.getD_cons_zero]
          rw [ih t₂ (by simpa using h), add_comm]

/-! ## Input validation and the public entry points (reckoning.py) -/

/-- The two error classes of the subsystem (spec section 7). -/
inductive PyError where
  | typeError (msg : String)
  | valueError (msg : String)
deriving DecidableEq, Repr

def PyError.isTypeError : PyError → Bool
  | .typeError _ => true
  | _ => false

def PyError.isValueError : PyError → Bool
  | .valueError _ => true
  | _ => false

/-- A raw Python dict key: an outcome (non-negative int), or an object of
any other type. -/
inductive RawKey where
  | kInt (n : ℕ)
  | kOther
deriving DecidableEq, Repr

/-- A raw Python dict value: an int, a float, or an object of any other
type. -/
inductive RawVal where
  | vInt (n : ℤ)
  | vFloat (q : ℚ)
  | vOther
deriving DecidableEq, Repr

/-- A plain Python mapping as handed to the validation boundary. -/
abbrev RawDict := List (RawKey × RawVal)

def RawKey.isInt : RawKey → Bool
  | .kInt _ => true
  | .kOther => false

def RawKey.toNat : RawKey → ℕ
  | .kInt n => n
  | .kOther => 0

def RawVal.isNum : RawVal → Bool
  | .vInt _ => true
  | .vFloat _ => true
  | .vOther => false

def RawVal.toRat : RawVal → ℚ
  | .vInt n => (n : ℚ)
  | .vFloat q => q
  | .vOther => 0

/-- A mapping with integer keys and numeric (int or float) values. -/
def rawDictWellTyped (d : RawDict) : Bool :=
  d.all fun kv => kv.1.isInt && kv.2.isNum

/-- Modelled from the spec: the qiskit Counts constructor on a plain
mapping (an external collaborator, spec sections 4.3 and 6): it accepts
outcome-to-weight mappings with integer keys and numeric values, and fails
with a TypeError-class error otherwise. -/
def countsOfDict (d : RawDict) : Except PyError Counts :=
  if rawDictWellTyped d then
    .ok ⟨d.map fun kv => (kv.1.toNat, kv.2.toRat)⟩
  else
    .error (.typeError "Invalid key or value type for counts.")

/-- The conversion body of counts_to_quasi_dist (frequencies.py):
`shots = counts.shots()`; `std_dev = sqrt(1 / shots) if shots else None`;
`probabilities = {k: v / (shots or 1) for k, v in counts.int_outcomes()}`;
the result carries shots and std_dev as metadata. -/
noncomputable def convertCounts (counts : Counts) : QuasiDist :=
  let shots := counts.shots
  { dist := counts.data.map fun kv => (kv.1, kv.2 / (if shots = 0 then 1 else shots))
    shots := some shots
    stddev_upper_bound :=
      if shots = 0 then none else some (Real.sqrt (1 / (shots : ℝ))) }

/-- A Python object handed to the reckoner as one frequencies entry:
a Counts, a QuasiDistribution, a plain mapping, or an object of any other
(unsupported, non-sequence) type. -/
inductive PyFreq where
  | counts (c : Counts)
  | quasi (q : QuasiDist)
  | dict (d : RawDict)
  | other

/-- counts_to_quasi_dist (frequencies.py) including its runtime type
check: fails with a TypeError-class error unless the input is a Counts. -/
noncomputable def counts_to_quasi_dist : PyFreq → Except PyError QuasiDist
  | .counts c => .ok (convertCounts c)
  | _ => .error (.typeError "Invalid counts type.")

/-- _validate_frequencies: inputs matching `isinstance(_, (Counts, dict))`
are rebuilt as Counts and converted to a QuasiDistribution; in qiskit both
Counts and QuasiDistribution are dict subclasses, so Counts,
QuasiDistribution and plain mappings all take this path (a
QuasiDistribution is rebuilt from its own entries); any other input fails
the final QuasiDistribution check with a TypeError-class error. -/
noncomputable def _validate_frequencies : PyFreq → Except PyError QuasiDist
  | .counts c => .ok (convertCounts c)
  | .quasi q => .ok (convertCounts ⟨q.dist⟩)
  | .dict d => (countsOfDict d).map convertCounts
  | .other => .error (.typeError "Expected QuasiDistribution object.")

/-- A Python object handed to the reckoner as the frequencies argument:
either a single (non-sequence) object or a sequence of objects. -/
inductive PyFreqInput where
  | single (f : PyFreq)
  | seq (fs : List PyFreq)

/-- _validate_frequencies_list: a lone frequencies-like or dict object is
wrapped into a one-element tuple; any other non-sequence input raises a
TypeError-class error; every element of the resulting sequence is then
validated. -/
noncomputable def _validate_frequencies_list :
    PyFreqInput → Except PyError (List QuasiDist)
  | .single .other => .error (.typeError "Expected Sequence object.")
  | .single f => [f].mapM _validate_frequencies
  | .seq fs => fs.mapM _validate_frequencies

/-- A Python object handed as one operator: a framework operator object
(BaseOperator or PauliSumOp, carried here in sparse-Pauli form), a Pauli
object, a Pauli-identifying string (carried as the term it denotes), or an
object of any other type. -/
inductive PyOp where
  | base (op : SparsePauliOp)
  | pauli (p : PauliTerm)
  | str (p : PauliTerm)
  | other

/-- Modelled from the spec: the external operator normalizer
(init_observable, spec section 6) returns a canonical sparse Pauli
operator for every supported operator input. -/
def normalize_operator : PyOp → Option SparsePauliOp
  | .base op => some op
  | .pauli p => some ⟨[p], [1]⟩
  | .str p => some ⟨[p], [1]⟩
  | .other => none

/-- _validate_operator: supported operator inputs are normalized; anything
else raises a TypeError-class error. -/
def _validate_operator (operator : PyOp) : Except PyError SparsePauliOp :=
  match normalize_operator operator with
  | some sp => .ok sp
  | none => .error (.typeError "Expected OperatorType object.")

/-- A Python object handed as the operator argument. -/
inductive PyOpInput where
  | single (o : PyOp)
  | seq (os : List PyOp)

/-- _validate_operator_list: a lone operator-like object is wrapped into a
one-element tuple; any other non-sequence input raises a TypeError-class
error; every element is then validated. -/
def _validate_operator_list : PyOpInput → Except PyError (List SparsePauliOp)
  | .single .other => .error (.typeError "Expected Sequence object.")
  | .single o => [o].mapM _validate_operator
  | .seq os => os.mapM _validate_operator

/-- A Python object handed as the pauli argument of reckon_pauli: a Pauli,
a string identifying one, or an object of any other type. -/
inductive PyPauli where
  | pauli (p : PauliTerm)
  | str (p : PauliTerm)
  | other

/-- _validate_pauli: strings are parsed into a Pauli, Paulis pass, anything
else raises a TypeError-class error. -/
def _validate_pauli : PyPauli → Except PyError PauliTerm
  | .pauli p => .ok p
  | .str p => .ok p
  | .other => .error (.typeError "Expected Pauli.")

/-- _cross_validate_lists: a ValueError-class error when the number of
frequencies entries does not match the number of operators. -/
def _cross_validate_lists (frequencies_list : List QuasiDist)
    (operator_list : List SparsePauliOp) : Except PyError Unit :=
  if frequencies_list.length ≠ operator_list.length then
    .error (.valueError "The number of frequencies entries does not match the number of operators.")
  else
    .ok ()

/-- reckon: validate the frequencies list, validate the operator list,
cross-validate, then compute.  The numeric post-processing of the source
(numpy real_if_close and tolist) only adjusts the Python numeric type, not
the value, so it is the identity in this exact model. -/
noncomputable def reckon (frequencies_list : PyFreqInput)
    (operator_list : PyOpInput) : Except PyError (CQ × ℝ) := do
  let fl ← _validate_frequencies_list frequencies_list
  let ol ← _validate_operator_list operator_list
  let _ ← _cross_validate_lists fl ol
  pure (_reckon fl ol)

/-- reckon_operator: validate both single inputs, then compute. -/
noncomputable def reckon_operator (frequencies : PyFreq) (operator : PyOp) :
    Except PyError (CQ × ℝ) := do
  let q ← _validate_frequencies frequencies
  let op ← _validate_operator operator
  pure (_reckon_operator q op)

/-- reckon_pauli: validate both single inputs, then compute. -/
noncomputable def reckon_pauli (frequencies : PyFreq) (pauli : PyPauli) :
    Except PyError (CQ × ℝ) := do
  let q ← _validate_frequencies frequencies
  let p ← _validate_pauli pauli
  pure (_reckon_pauli q p)

/-- reckon_frequencies: validate the single frequencies input, then
compute. -/
noncomputable def reckon_frequencies (frequencies : PyFreq) :
    Except PyError (ℚ × ℝ) := do
  let q ← _validate_frequencies frequencies
  pure (_reckon_frequencies q)

/-- A frequencies entry accepted by _validate_frequencies. -/
def PyFreq.accepted : PyFreq → Bool
  | .counts _ => true
  | .quasi _ => true
  | .dict d => rawDictWellTyped d
  | .other => false

/-- A frequencies argument accepted by _validate_frequencies_list. -/
def PyFreqInput.accepted : PyFreqInput → Bool
  | .single f => f.accepted
  | .seq fs => fs.all PyFreq.accepted

/-- An operator entry accepted by _validate_operator. -/
def PyOp.accepted (o : PyOp) : Bool :=
  (normalize_operator o).isSome

/-- An operator argument accepted by _validate_operator_list. -/
def PyOpInput.accepted : PyOpInput → Bool
  | .single o => o.accepted
  | .seq os => os.all PyOp.accepted

/-- A pauli argument accepted by _validate_pauli. -/
def PyPauli.accepted : PyPauli → Bool
  | .other => false
  | _ => true

/-- The call raised a TypeError-class error. -/
def raisesTypeError {α : Type} : Except PyError α → Bool
  | .error e => e.isTypeError
  | .ok _ => false

/-- The call raised a ValueError-class error. -/
def raisesValueError {α : Type} : Except PyError α → Bool
  | .error e => e.isValueError
  | .ok _ => false

/-! ## Transport lemmas for map_dict -/

theorem anyKey_dictSet (a : FreqDict) (k : ℕ) (v : ℚ) (P : ℕ → Bool) :
    ((dictSet a k v).any fun kv => P kv.1) = (P k || a.any fun kv => P kv.1) := by
  induction a with
  | nil => simp [dictSet]
  | cons kv rest ih =>
      obtain ⟨k₀, v₀⟩ := kv
      simp only [dictSet]
      by_cases h₀ : k₀ = k
      · subst h₀
        simp only [if_pos rfl, List.any_cons]
        cases h : P k₀ <;> simp [h]
      · simp only [if_neg h₀, List.any_cons, ih]
        cases h₁ : P k₀ <;> cases h₂ : P k <;> simp [h₁, h₂]

theorem anyKey_dictAdd (a : FreqDict) (k : ℕ) (v : ℚ) (P : ℕ → Bool) :
    ((dictAdd a k v).any fun kv => P kv.1) = (P k || a.any fun kv => P kv.1) :=
  anyKey_dictSet ..

theorem foldl_dictAdd_anyKey (d : FreqDict) (mapper : ℕ → ℕ) (acc : FreqDict)
    (P : ℕ → Bool) :
    ((d.foldl (fun acc kv => dictAdd acc (mapper kv.1) kv.2) acc).any
        fun kv => P kv.1)
      = ((acc.any fun kv => P kv.1) || d.any fun kv => P (mapper kv.1)) := by
  induction d generalizing acc with
  | nil => simp
  | cons kv rest ih =>
      obtain ⟨k, v⟩ := kv
      rw [List.foldl_cons, ih, anyKey_dictAdd, List.any_cons]
      cases h₁ : P (mapper k) <;> simp [h₁]

theorem anyKey_map_dict (d : FreqDict) (mapper : ℕ → ℕ) (P : ℕ → Bool) :
    ((map_dict d mapper).any fun kv => P kv.1) = d.any fun kv => P (mapper kv.1) := by
  unfold map_dict
  rw [foldl_dictAdd_anyKey]
  simp

theorem dictHasKey_eq_anyKey (d : FreqDict) (k : ℕ) :
    dictHasKey d k = d.any fun kv => kv.1 == k := by
  induction d with
  | nil => simp
  | cons kv rest ih =>
      obtain ⟨k₀, v₀⟩ := kv
      simp [ih]

theorem foldl_dictAdd_sumIf (d : FreqDict) (mapper : ℕ → ℕ) (acc : FreqDict)
    (P : ℕ → Bool) :
    dictSumIf (d.foldl (fun acc kv => dictAdd acc (mapper kv.1) kv.2) acc) P
      = dictSumIf acc P + dictSumIf d fun x => P (mapper x) := by
  induction d generalizing acc with
  | nil => simp
  | cons kv rest ih =>
      obtain ⟨k, v⟩ := kv
      rw [List.foldl_cons, ih, dictSumIf_dictAdd, dictSumIf_cons]
      by_cases h : P (mapper k) <;> simp only [h, if_true, if_false] <;> ring

theorem dictSumIf_map_dict (d : FreqDict) (mapper : ℕ → ℕ) (P : ℕ → Bool) :
    dictSumIf (map_dict d mapper) P = dictSumIf d fun x => P (mapper x) := by
  unfold map_dict
  rw [foldl_dictAdd_sumIf]
  simp

theorem dictSumIf_eq_map_sum (d : FreqDict) (P : ℕ → Bool) :
    dictSumIf d P = (d.map fun kv => if P kv.1 then kv.2 else 0).sum := by
  induction d with
  | nil => simp
  | cons kv rest ih =>
      obtain ⟨k, v⟩ := kv
      rw [dictSumIf_cons, List.map_cons, List.sum_cons, ih]

theorem sum_entries_eq_sum_keys (d : FreqDict) (F : ℕ → ℚ → ℚ)
    (hnd : (d.map Prod.fst).Nodup) :
    (d.map fun kv => F kv.1 kv.2).sum
      = ∑ k ∈ (d.map Prod.fst).toFinset, F k (dictGet d k) := by
  induction d with
  | nil => simp
  | cons kv rest ih =>
      obtain ⟨k, v⟩ := kv
      simp only [List.map_cons] at hnd
      have hk : k ∉ rest.map Prod.fst := (List.nodup_cons.mp hnd).1
      have hnd' := (List.nodup_cons.mp hnd).2
      rw [List.map_cons, List.sum_cons, List.map_cons, List.toFinset_cons,
        Finset.sum_insert (by simpa using hk)]
      congr 1
      · simp
      · rw [ih hnd']
        refine Finset.sum_congr rfl fun x hx => ?_
        have hxk : ¬k = x := fun hh => hk (hh ▸ List.mem_toFinset.mp hx)
        simp [dictGet_cons, hxk]

/-! ## Claims C5, C6 and C10: the frequency transform layer -/

/-- Claim C10: map_dict (hence remap on every supported variant) preserves
the total weight of a frequency table, and so do bitflip_frequencies and
bitmask_frequencies for every integer mask. -/
theorem c10_remap_preserves_total_weight :
    (∀ (d : FreqDict) (mapper : ℕ → ℕ), dictTotal (map_dict d mapper) = dictTotal d)
    ∧ (∀ (c : Counts) (mapper : ℕ → ℕ),
        dictTotal (map_counts c mapper).data = dictTotal c.data)
    ∧ (∀ (q : QuasiDist) (mapper : ℕ → ℕ),
        dictTotal (map_quasi_dist q mapper).dist = dictTotal q.dist)
    ∧ (∀ (d : FreqDict) (m : ℕ), dictTotal (bitflip_frequencies d m) = dictTotal d)
    ∧ (∀ (d : FreqDict) (m : ℕ), dictTotal (bitmask_frequencies d m) = dictTotal d) :=
  ⟨dictTotal_map_dict,
    fun c mapper => dictTotal_map_dict c.data mapper,
    fun q mapper => dictTotal_map_dict q.dist mapper,
    fun d _ => dictTotal_map_dict d _,
    fun d _ => dictTotal_map_dict d _⟩

/-- Claim C5: remap applies the mapper to every key (a key is present in
the output exactly when it is the image of a present input key), and the
weight of every output key is the sum of the input weights over all input
keys mapping to it: weights of colliding keys are summed, never
overwritten. -/
theorem c5_remap_sums_collided_weights (d : FreqDict) (f : ℕ → ℕ)
    (hnd : (d.map Prod.fst).Nodup) :
    (∀ y, dictHasKey (map_dict d f) y = true ↔ ∃ x ∈ d.map Prod.fst, f x = y)
    ∧ ∀ y, dictGet (map_dict d f) y
        = ∑ x ∈ (d.map Prod.fst).toFinset.filter fun x => f x = y, dictGet d x := by
  constructor
  · intro y
    rw [dictHasKey_map_dict, List.any_eq_true]
    constructor
    · rintro ⟨kv, hmem, hky⟩
      exact ⟨kv.1, List.mem_map_of_mem _ hmem, by simpa using hky⟩
    · rintro ⟨x, hx, hxy⟩
      obtain ⟨kv, hkv, rfl⟩ := List.mem_map.mp hx
      exact ⟨kv, hkv, by simpa using hxy⟩
  · intro y
    rw [dictGet_map_dict, dictSumIf_eq_map_sum,
      sum_entries_eq_sum_keys d (fun x w => if f x == y then w else 0) hnd,
      Finset.sum_filter]
    refine Finset.sum_congr rfl fun x hx => ?_
    by_cases h : f x = y <;> simp [h]

/-- Witness for claim C5 at a concrete table and mapper with a key
collision. -/
theorem c5_remap_sums_collided_weights_witness :
    ((([(0, 1), (1, 2), (2, 4)] : FreqDict).map Prod.fst).Nodup
      ∧ ((∀ y, dictHasKey (map_dict [(0, 1), (1, 2), (2, 4)] fun x => x % 2) y = true
            ↔ ∃ x ∈ ([(0, 1), (1, 2), (2, 4)] : FreqDict).map Prod.fst, x % 2 = y)
        ∧ ∀ y, dictGet (map_dict [(0, 1), (1, 2), (2, 4)] fun x => x % 2) y
            = ∑ x ∈ (([(0, 1), (1, 2), (2, 4)] : FreqDict).map
                Prod.fst).toFinset.filter fun x => x % 2 = y,
                dictGet [(0, 1), (1, 2), (2, 4)] x)) :=
  ⟨by decide, c5_remap_sums_collided_weights [(0, 1), (1, 2), (2, 4)] (fun x => x % 2)
    (by decide)⟩

/-- Claim C6: masking twice is masking by the conjunction of the masks;
the results are equal as Python dicts (same keys, same values). -/
theorem c6_bitmask_compose (d : FreqDict) (m₁ m₂ : ℕ) :
    dictEquiv (bitmask_frequencies (bitmask_frequencies d m₁) m₂)
      (bitmask_frequencies d (m₁ &&& m₂)) := by
  constructor
  · intro k
    calc dictHasKey (bitmask_frequencies (bitmask_frequencies d m₁) m₂) k
        = (map_dict d fun r => r &&& m₁).any fun kv => (kv.1 &&& m₂) == k :=
          dictHasKey_map_dict ..
      _ = d.any (fun kv => ((kv.1 &&& m₁) &&& m₂) == k) :=
          anyKey_map_dict d _ fun x => (x &&& m₂) == k
      _ = d.any (fun kv => (kv.1 &&& (m₁ &&& m₂)) == k) := by
          refine congrArg _ (funext fun kv => ?_)
          rw [Nat.land_assoc]
      _ = dictHasKey (bitmask_frequencies d (m₁ &&& m₂)) k :=
          (dictHasKey_map_dict d (fun r => r &&& (m₁ &&& m₂)) k).symm
  · intro k
    calc dictGet (bitmask_frequencies (bitmask_frequencies d m₁) m₂) k
        = dictSumIf (map_dict d fun r => r &&& m₁) fun x => (x &&& m₂) == k :=
          dictGet_map_dict ..
      _ = dictSumIf d (fun x => ((x &&& m₁) &&& m₂) == k) :=
          dictSumIf_map_dict d _ fun x => (x &&& m₂) == k
      _ = dictSumIf d (fun x => (x &&& (m₁ &&& m₂)) == k) := by
          refine congrArg _ (funext fun x => ?_)
          rw [Nat.land_assoc]
      _ = dictGet (bitmask_frequencies d (m₁ &&& m₂)) k :=
          (dictGet_map_dict d (fun r => r &&& (m₁ &&& m₂)) k).symm

/-! ## Claim C1: Level 0 reckoning -/

theorem reckon_frequencies_expval_eq_sum (q : QuasiDist) :
    _reckon_frequencies_expval q
      = (q.dist.map fun kv => (-1 : ℚ) ^ parity_bit kv.1 true * kv.2).sum := by
  unfold _reckon_frequencies_expval
  rw [foldl_add_eq_sum q.dist (fun kv => (-1 : ℚ) ^ parity_bit kv.1 true * kv.2) 0,
    zero_add]

theorem observation_eq_eigenvalue (k : ℕ) (v : ℚ) :
    (-1 : ℚ) ^ parity_bit k true * v
      = v * if Even (popCount k) then 1 else -1 := by
  unfold parity_bit
  rcases Nat.mod_two_eq_zero_or_one (popCount k) with h | h
  · simp [h, Nat.even_iff]
  · simp [h, Nat.even_iff]

theorem reckon_frequencies_empty (s : Option ℚ) (σ : Option ℝ) :
    _reckon_frequencies ⟨[], s, σ⟩ = (0, 1) := by
  unfold _reckon_frequencies _reckon_frequencies_variance
  have he : _reckon_frequencies_expval ⟨[], s, σ⟩ = 0 := rfl
  rw [he]
  norm_num

theorem reckon_frequencies_zero_entry (s : Option ℚ) (σ : Option ℝ) :
    _reckon_frequencies ⟨[(0, 0)], s, σ⟩ = (0, 1) := by
  unfold _reckon_frequencies _reckon_frequencies_variance
  have he : _reckon_frequencies_expval ⟨[(0, 0)], s, σ⟩ = 0 := by
    unfold _reckon_frequencies_expval
    simp
  rw [he]
  norm_num

/-- Claim C1: on every frequency table, Level 0 returns as expval the sum
over the outcomes of weight times eigenvalue (+1 for even popcount, -1 for
odd), and as std_error the square root of 1 - expval ^ 2; the empty
mapping and the mapping with a single zero count at outcome 0 are both
accepted by the public entry point and yield (0, 1). -/
theorem c1_reckon_frequencies :
    (∀ q : QuasiDist, (_reckon_frequencies q).1
        = (q.dist.map fun kv => kv.2 * if Even (popCount kv.1) then 1 else -1).sum)
    ∧ (∀ q : QuasiDist, (_reckon_frequencies q).2
        = Real.sqrt (1 - (((_reckon_frequencies q).1 : ℚ) : ℝ) ^ 2))
    ∧ reckon_frequencies (.dict []) = .ok (0, 1)
    ∧ reckon_frequencies (.dict [(.kInt 0, .vInt 0)]) = .ok (0, 1) := by
  refine ⟨fun q => ?_, fun q => ?_, ?_, ?_⟩
  · show _reckon_frequencies_expval q = _
    rw [reckon_frequencies_expval_eq_sum]
    exact congrArg List.sum (List.map_congr_left fun kv _ =>
      observation_eq_eigenvalue kv.1 kv.2)
  · show Real.sqrt ((_reckon_frequencies_variance q : ℚ) : ℝ) = _
    refine congrArg Real.sqrt ?_
    have hfst : (_reckon_frequencies q).1 = _reckon_frequencies_expval q := rfl
    rw [hfst]
    unfold _reckon_frequencies_variance
    push_cast
    ring
  · have hok : reckon_frequencies (.dict [])
        = .ok (_reckon_frequencies (convertCounts ⟨[]⟩)) := rfl
    have hconv : convertCounts ⟨[]⟩ = ⟨[], some 0, none⟩ := by
      simp [convertCounts, Counts.shots, dictTotal]
    rw [hok, hconv, reckon_frequencies_empty]
  · have hok : reckon_frequencies (.dict [(.kInt 0, .vInt 0)])
        = .ok (_reckon_frequencies (convertCounts ⟨[(0, 0)]⟩)) := rfl
    have hconv : convertCounts ⟨[(0, 0)]⟩
        = ⟨[(0, 0)], some 0, none⟩ := by
      simp [convertCounts, Counts.shots, dictTotal]
    rw [hok, hconv, reckon_frequencies_zero_entry]

/-! ## Claim C2: the Pauli mask and Level 1 reckoning -/

theorem bitsToNatLE_testBit (bs : List Bool) (i : ℕ) :
    (bitsToNatLE bs).testBit i = bs.getD i false := by
  induction bs generalizing i with
  | nil => simp [bitsToNatLE]
  | cons b rest ih =>
      cases i with
      | zero =>
          show (bitsToNatLE (b :: rest)).testBit 0 = b
          rw [bitsToNatLE, Nat.testBit_zero]
          cases b <;> simp [Nat.add_mul_mod_self_left]
      | succ i =>
          show (bitsToNatLE (b :: rest)).testBit (i + 1) = rest.getD i false
          rw [bitsToNatLE, Nat.testBit_add_one, Nat.add_mul_div_left _ _ (by norm_num : 0 < 2)]
          cases b <;> simpa using ih i

theorem bitsToNatLE_lt (bs : List Bool) : bitsToNatLE bs < 2 ^ bs.length := by
  induction bs with
  | nil => simp [bitsToNatLE]
  | cons b rest ih =>
      have hb : b.toNat ≤ 1 := Bool.toNat_le b
      rw [bitsToNatLE, List.length_cons, pow_succ]
      omega

theorem bitsToNatLE_split (k : ℕ) (bs : List Bool) :
    bitsToNatLE bs = bitsToNatLE (bs.take k) + 2 ^ k * bitsToNatLE (bs.drop k) := by
  induction k generalizing bs with
  | zero => simp [bitsToNatLE]
  | succ k ih =>
      cases bs with
      | nil => simp [bitsToNatLE]
      | cons b rest =>
          rw [List.take_succ_cons, List.drop_succ_cons, bitsToNatLE, bitsToNatLE,
            ih rest]
          ring

theorem reduceShiftOr_append (xs : List ℕ) (e : ℕ) :
    reduceShiftOr (xs ++ [e]) = ((reduceShiftOr xs) <<< 8) ||| e := by
  cases xs with
  | nil => simp [reduceShiftOr]
  | cons h t =>
      show (t ++ [e]).foldl (fun value element => (value <<< 8) ||| element) h = _
      rw [List.foldl_append]
      rfl

theorem shiftLeft_or_of_lt (a e : ℕ) (he : e < 256) :
    ((a <<< 8) ||| e) = 256 * a + e := by
  have h : (256 : ℕ) = 2 ^ 8 := by norm_num
  have he' : e < 2 ^ 8 := by omega
  rw [Nat.shiftLeft_eq, Nat.mul_comm a (2 ^ 8), h]
  exact (Nat.mul_add_lt_is_or he' a).symm

theorem reduceShiftOr_reverse (l : List ℕ) (hl : ∀ e ∈ l, e < 256) :
    reduceShiftOr l.reverse = l.foldr (fun e acc => e + 256 * acc) 0 := by
  induction l with
  | nil => simp [reduceShiftOr]
  | cons b rest ih =>
      rw [List.reverse_cons, reduceShiftOr_append,
        ih fun e he => hl e (List.mem_cons_of_mem _ he),
        shiftLeft_or_of_lt _ _ (hl b (List.mem_cons_self b rest)), List.foldr_cons]
      ring

theorem packbitsLittle_mem_lt (bs : List Bool) :
    ∀ e ∈ packbitsLittle bs, e < 256 := by
  induction bs using packbitsLittle.induct with
  | case1 => simp [packbitsLittle]
  | case2 b rest ih =>
      rw [packbitsLittle]
      intro e he
      rcases List.mem_cons.mp he with rfl | hmem
      · have h1 : bitsToNatLE ((b :: rest).take 8) < 2 ^ ((b :: rest).take 8).length :=
          bitsToNatLE_lt _
        have h2 : ((b :: rest).take 8).length ≤ 8 := by
          simp [List.length_take]
        have h3 : (2 : ℕ) ^ ((b :: rest).take 8).length ≤ 2 ^ 8 :=
          Nat.pow_le_pow_right (by norm_num) h2
        omega
      · exact ih e hmem

theorem valBase_packbitsLittle (bs : List Bool) :
    (packbitsLittle bs).foldr (fun e acc => e + 256 * acc) 0 = bitsToNatLE bs := by
  induction bs using packbitsLittle.induct with
  | case1 => simp [packbitsLittle, bitsToNatLE]
  | case2 b rest ih =>
      rw [packbitsLittle, List.foldr_cons, ih, bitsToNatLE_split 8 (b :: rest)]
      norm_num

theorem pauli_integer_mask_testBit (p : PauliTerm) (i : ℕ) :
    (pauli_integer_mask p).testBit i = (pauliMaskBits p).getD i false := by
  unfold pauli_integer_mask
  rw [reduceShiftOr_reverse _ (packbitsLittle_mem_lt _), valBase_packbitsLittle,
    bitsToNatLE_testBit]

theorem SQPauli.z_or_x (op : SQPauli) :
    (op.z || op.x) = decide (op ≠ SQPauli.I) := by
  cases op <;> simp [SQPauli.z, SQPauli.x]

theorem pauliMaskBits_getD (ops : List SQPauli) (i : ℕ) :
    ((ops.map fun op => op.z || op.x).getD i false)
      = (decide (i < ops.length) && decide (ops.getD i SQPauli.I ≠ SQPauli.I)) := by
  induction ops generalizing i with
  | nil => simp
  | cons op rest ih =>
      cases i with
      | zero => simp [SQPauli.z_or_x]
      | succ i => simpa using ih i

/-- Claim C2: the integer mask of a Pauli term has bit i set exactly when
qubit i exists and its single-qubit operator is not the identity (qubit i
matching outcome bit i), and Level 1 returns the Level 0 result of the
mask-marginalized table with its expval scaled by the phase coefficient
(-i) ^ phase and its std_error passed through unchanged. -/
theorem c2_reckon_pauli (q : QuasiDist) (p : PauliTerm) :
    (∀ i, (pauli_integer_mask p).testBit i
        = (decide (i < p.ops.length)
            && decide (p.ops.getD i SQPauli.I ≠ SQPauli.I)))
    ∧ _reckon_pauli q p
      = (negIPow p.phase * CQ.ofRat
            (_reckon_frequencies
              (map_quasi_dist q fun readout => readout &&& pauli_integer_mask p)).1,
          (_reckon_frequencies
            (map_quasi_dist q fun readout => readout &&& pauli_integer_mask p)).2) := by
  constructor
  · intro i
    rw [pauli_integer_mask_testBit]
    exact pauliMaskBits_getD p.ops i
  · rfl

/-! ## Claims C3 and C4: Levels 2 and 3 -/

theorem CQ.mul_comm (a b : CQ) : a * b = b * a := by
  simp only [CQ.mul_def, CQ.mk.injEq]
  constructor <;> ring

theorem getD_map_lt {α β : Type} (l : List α) (f : α → β) (k : ℕ)
    (hk : k < l.length) (d : β) (d' : α) :
    (l.map f).getD k d = f (l.getD k d') := by
  induction l generalizing k with
  | nil => simp at hk
  | cons a t ih =>
      cases k with
      | zero => simp
      | succ k => simpa using ih k (by simpa using hk)

instance : Inhabited QuasiDist := ⟨⟨[], none, none⟩⟩

instance : Inhabited SparsePauliOp := ⟨⟨[], []⟩⟩

/-- Claim C3: Level 2 returns the complex linear combination of the
per-term expectation values as expval, and the square root of the sum of
the squared per-term std errors weighted by the squared coefficient
magnitudes as std_error. -/
theorem c3_reckon_operator (q : QuasiDist) (op : SparsePauliOp)
    (h : op.coeffs.length = op.paulis.length) :
    _reckon_operator q op
      = (∑ k ∈ Finset.range op.paulis.length,
            op.coeffs.getD k 0 * (_reckon_pauli q (op.paulis.getD k default)).1,
          Real.sqrt (∑ k ∈ Finset.range op.paulis.length,
            (_reckon_pauli q (op.paulis.getD k default)).2 ^ 2
              * (CQ.normSq (op.coeffs.getD k 0) : ℝ))) := by
  refine Prod.ext ?_ ?_
  · show (((op.paulis.map fun pauli => (_reckon_pauli q pauli).1).zip
        op.coeffs).map fun vc => vc.1 * vc.2).sum = _
    rw [zip_map_sum_eq_range_sum _ _ _ 0 0 (by simp [h]), List.length_map]
    refine Finset.sum_congr rfl fun k hk => ?_
    rw [getD_map_lt _ _ k (Finset.mem_range.mp hk) 0 default, CQ.mul_comm]
  · show Real.sqrt (_reckon_operator_variance q op) = _
    refine congrArg Real.sqrt ?_
    refine Eq.trans (zip_map_sum_eq_range_sum
      (op.paulis.map fun pauli => (_reckon_pauli q pauli).2) op.coeffs
      (fun e c => e ^ 2 * (CQ.normSq c : ℝ)) 0 0 (by simp [h])) ?_
    rw [List.length_map]
    refine Finset.sum_congr rfl fun k hk => ?_
    rw [getD_map_lt op.paulis (fun pauli => (_reckon_pauli q pauli).2) k
      (Finset.mem_range.mp hk) 0 default]

/-- A concrete frequency table for the witnesses. -/
def exQuasi : QuasiDist := ⟨[(0, 1)], none, none⟩

/-- A concrete two-term operator for the witnesses. -/
def exOp : SparsePauliOp :=
  ⟨[⟨[SQPauli.Z], 0⟩, ⟨[SQPauli.X], 1⟩], [⟨2, 0⟩, ⟨0, 1⟩]⟩

/-- Witness for claim C3 at a concrete table and two-term operator. -/
theorem c3_reckon_operator_witness :
    exOp.coeffs.length = exOp.paulis.length
    ∧ _reckon_operator exQuasi exOp
      = (∑ k ∈ Finset.range exOp.paulis.length,
            exOp.coeffs.getD k 0 * (_reckon_pauli exQuasi (exOp.paulis.getD k default)).1,
          Real.sqrt (∑ k ∈ Finset.range exOp.paulis.length,
            (_reckon_pauli exQuasi (exOp.paulis.getD k default)).2 ^ 2
              * (CQ.normSq (exOp.coeffs.getD k 0) : ℝ))) :=
  ⟨rfl, c3_reckon_operator exQuasi exOp rfl⟩

/-- Claim C4: Level 3 returns the sum of the per-pair Level 2 expvals and
the square root of the sum of their squared std errors; on two pairs the
expval is the sum of the two per-pair expvals; the public entry point on
two empty sequences returns (0, 0). -/
theorem c4_reckon :
    (∀ (fl : List QuasiDist) (ol : List SparsePauliOp), fl.length = ol.length →
      _reckon fl ol
        = (∑ k ∈ Finset.range fl.length,
              (_reckon_operator (fl.getD k default) (ol.getD k default)).1,
            Real.sqrt (∑ k ∈ Finset.range fl.length,
              (_reckon_operator (fl.getD k default) (ol.getD k default)).2 ^ 2)))
    ∧ (∀ (f₁ f₂ : QuasiDist) (o₁ o₂ : SparsePauliOp),
        (_reckon [f₁, f₂] [o₁, o₂]).1
          = (_reckon_operator f₁ o₁).1 + (_reckon_operator f₂ o₂).1)
    ∧ reckon (.seq []) (.seq []) = .ok (0, 0) := by
  refine ⟨fun fl ol h => ?_, fun f₁ f₂ o₁ o₂ => ?_, ?_⟩
  · refine Prod.ext ?_ ?_
    · show (((fl.zip ol).map fun fo => _reckon_operator fo.1 fo.2).foldl
          (fun expval ve => expval + ve.1) 0) = _
      rw [foldl_add_eq_sum _ Prod.fst 0, zero_add, List.map_map]
      exact zip_map_sum_eq_range_sum fl ol
        (fun f o => (_reckon_operator f o).1) default default h
    · show Real.sqrt (_reckon_variance fl ol) = _
      refine congrArg Real.sqrt ?_
      show (((fl.zip ol).map fun fo => _reckon_operator fo.1 fo.2).foldl
          (fun variance ve => variance + ve.2 ^ 2) 0) = _
      rw [foldl_add_eq_sum ((fl.zip ol).map fun fo => _reckon_operator fo.1 fo.2)
        (fun ve : CQ × ℝ => ve.2 ^ 2) 0, zero_add, List.map_map]
      exact zip_map_sum_eq_range_sum fl ol
        (fun f o => (_reckon_operator f o).2 ^ 2) default default h
  · show ((0 : CQ) + (_reckon_operator f₁ o₁).1 + (_reckon_operator f₂ o₂).1) = _
    rw [zero_add]
  · have h : reckon (.seq []) (.seq []) = .ok ((0 : CQ), Real.sqrt 0) := rfl
    rw [h, Real.sqrt_zero]

/-- Witness for claim C4 at a concrete one-pair batch. -/
theorem c4_reckon_witness :
    ([exQuasi].length = [exOp].length)
    ∧ _reckon [exQuasi] [exOp]
      = (∑ k ∈ Finset.range [exQuasi].length,
            (_reckon_operator ([exQuasi].getD k default) ([exOp].getD k default)).1,
          Real.sqrt (∑ k ∈ Finset.range [exQuasi].length,
            (_reckon_operator ([exQuasi].getD k default) ([exOp].getD k default)).2 ^ 2)) :=
  ⟨rfl, c4_reckon.1 [exQuasi] [exOp] rfl⟩

/-! ## Claim C7: counts to quasi-probability conversion -/

theorem dictGet_map_values (d : FreqDict) (g : ℚ → ℚ) (hg : g 0 = 0) (k : ℕ) :
    dictGet (d.map fun kv => (kv.1, g kv.2)) k = g (dictGet d k) := by
  induction d with
  | nil => simpa using hg.symm
  | cons kv rest ih =>
      obtain ⟨k₀, v₀⟩ := kv
      by_cases h : k₀ = k <;> simp [h, ih]

theorem dictTotal_nonneg (d : FreqDict) (hv : ∀ kv ∈ d, 0 ≤ kv.2) :
    0 ≤ dictTotal d := by
  refine List.sum_nonneg fun x hx => ?_
  obtain ⟨kv, hkv, rfl⟩ := List.mem_map.mp hx
  exact hv kv hkv

/-- The input is a Counts object. -/
def PyFreq.isCounts : PyFreq → Bool
  | .counts _ => true
  | _ => false

/-- Claim C7: converting counts to a quasi-distribution divides every
count by the shot count (by 1 when it is 0), stores the shot count in the
shots metadata, sets stddev_upper_bound to sqrt(1/shots) when shots is
positive and leaves it unset when shots is 0, and fails with a
TypeError-class error on any non-Counts input. -/
theorem c7_counts_to_quasi_dist (c : Counts) (hv : ∀ kv ∈ c.data, 0 ≤ kv.2) :
    counts_to_quasi_dist (.counts c) = .ok (convertCounts c)
    ∧ (∀ k, dictGet (convertCounts c).dist k
        = dictGet c.data k / (if c.shots = 0 then 1 else c.shots))
    ∧ (convertCounts c).shots = some c.shots
    ∧ (convertCounts c).stddev_upper_bound
        = (if 0 < c.shots then some (Real.sqrt (1 / (c.shots : ℝ))) else none)
    ∧ ∀ f : PyFreq, f.isCounts = false → raisesTypeError (counts_to_quasi_dist f) = true := by
  refine ⟨rfl, fun k => ?_, rfl, ?_, fun f hf => ?_⟩
  · show dictGet (c.data.map fun kv =>
        (kv.1, kv.2 / (if c.shots = 0 then 1 else c.shots))) k = _
    exact dictGet_map_values c.data
      (fun v => v / (if c.shots = 0 then 1 else c.shots)) (zero_div _) k
  · show (if c.shots = 0 then none
        else some (Real.sqrt (1 / (c.shots : ℝ)))) = _
    have h0 : 0 ≤ c.shots := dictTotal_nonneg c.data hv
    by_cases h : c.shots = 0
    · simp [h]
    · have hpos : 0 < c.shots := lt_of_le_of_ne h0 (Ne.symm h)
      simp [h, hpos]
  · cases f with
    | counts c' => simp [PyFreq.isCounts] at hf
    | quasi q => rfl
    | dict d => rfl
    | other => rfl

/-- A concrete counts table for the witnesses. -/
def exCounts : Counts := ⟨[(0, 2), (1, 2)]⟩

/-- Witness for claim C7 at a concrete counts table with 4 shots. -/
theorem c7_counts_to_quasi_dist_witness :
    (∀ kv ∈ exCounts.data, 0 ≤ kv.2)
    ∧ (counts_to_quasi_dist (.counts exCounts) = .ok (convertCounts exCounts)
      ∧ (∀ k, dictGet (convertCounts exCounts).dist k
          = dictGet exCounts.data k / (if exCounts.shots = 0 then 1 else exCounts.shots))
      ∧ (convertCounts exCounts).shots = some exCounts.shots
      ∧ (convertCounts exCounts).stddev_upper_bound
          = (if 0 < exCounts.shots then some (Real.sqrt (1 / (exCounts.shots : ℝ))) else none)
      ∧ ∀ f : PyFreq, f.isCounts = false
          → raisesTypeError (counts_to_quasi_dist f) = true) :=
  ⟨by decide, c7_counts_to_quasi_dist exCounts (by decide)⟩

/-! ## Claim C9: sign of the variance argument and of std_error -/

theorem abs_list_sum_le (l : List ℚ) : |l.sum| ≤ (l.map fun x => |x|).sum := by
  induction l with
  | nil => simp
  | cons a t ih =>
      simp only [List.sum_cons, List.map_cons]
      calc |a + t.sum| ≤ |a| + |t.sum| := abs_add ..
        _ ≤ |a| + (t.map fun x => |x|).sum := by linarith

theorem abs_expval_le_abs_total (q : QuasiDist) :
    |_reckon_frequencies_expval q| ≤ (q.dist.map fun kv => |kv.2|).sum := by
  rw [reckon_frequencies_expval_eq_sum]
  refine le_trans (abs_list_sum_le _) (le_of_eq ?_)
  rw [List.map_map]
  refine congrArg List.sum (List.map_congr_left fun kv _ => ?_)
  show |(-1 : ℚ) ^ parity_bit kv.1 true * kv.2| = |kv.2|
  rw [abs_mul, abs_pow, abs_neg, abs_one, one_pow, one_mul]

theorem CQ.normSq_nonneg (a : CQ) : 0 ≤ a.normSq :=
  add_nonneg (sq_nonneg _) (sq_nonneg _)

/-- Claim C9, amended: Level 0 never hands sqrt a negative variance
provided the total absolute weight of the table is at most 1 (true of
every table produced from counts or plain mappings, whose weights are
non-negative and normalized), and its std_error is then a non-negative
real; the variance arguments of Levels 2 and 3 are sums of squares and
are never negative.  (The original claim fails for quasi-probability
inputs of total absolute weight above 1: see the counterexample.) -/
theorem c9_variance_nonneg :
    (∀ q : QuasiDist, (q.dist.map fun kv => |kv.2|).sum ≤ 1 →
      0 ≤ _reckon_frequencies_variance q ∧ 0 ≤ (_reckon_frequencies q).2)
    ∧ (∀ (q : QuasiDist) (op : SparsePauliOp), 0 ≤ _reckon_operator_variance q op)
    ∧ (∀ (fl : List QuasiDist) (ol : List SparsePauliOp), 0 ≤ _reckon_variance fl ol) := by
  refine ⟨fun q hq => ⟨?_, Real.sqrt_nonneg _⟩, fun q op => ?_, fun fl ol => ?_⟩
  · have habs : |_reckon_frequencies_expval q| ≤ 1 :=
      le_trans (abs_expval_le_abs_total q) hq
    have hsq : _reckon_frequencies_expval q ^ 2 ≤ 1 :=
      (sq_le_one_iff_abs_le_one (a := _reckon_frequencies_expval q)).mpr habs
    unfold _reckon_frequencies_variance
    linarith
  · refine List.sum_nonneg fun x hx => ?_
    obtain ⟨ec, _, rfl⟩ := List.mem_map.mp hx
    exact mul_nonneg (sq_nonneg _) (by exact_mod_cast CQ.normSq_nonneg ec.2)
  · show 0 ≤ ((fl.zip ol).map fun fo => _reckon_operator fo.1 fo.2).foldl
        (fun variance ve => variance + ve.2 ^ 2) 0
    rw [foldl_add_eq_sum ((fl.zip ol).map fun fo => _reckon_operator fo.1 fo.2)
      (fun ve : CQ × ℝ => ve.2 ^ 2) 0, zero_add]
    refine List.sum_nonneg fun x hx => ?_
    obtain ⟨ve, _, rfl⟩ := List.mem_map.mp hx
    exact sq_nonneg _

/-- A normalized concrete table for the C9 witness. -/
def exQuasiNorm : QuasiDist := ⟨[(0, 1), (1, 0)], none, none⟩

/-- Witness for claim C9 at a concrete normalized table. -/
theorem c9_variance_nonneg_witness :
    ((exQuasiNorm.dist.map fun kv => |kv.2|).sum ≤ 1)
    ∧ (0 ≤ _reckon_frequencies_variance exQuasiNorm
        ∧ 0 ≤ (_reckon_frequencies exQuasiNorm).2) :=
  ⟨by simp [exQuasiNorm], c9_variance_nonneg.1 exQuasiNorm (by simp [exQuasiNorm])⟩

/-- Counterexample to claim C9 as stated: the quasi-probability table
mapping outcome 0 to weight -1 and outcome 1 to weight 2 is accepted by
frequency validation, yet the variance handed to sqrt at Level 0 on the
validated table is -8, which is negative. -/
theorem c9_counterexample :
    PyFreq.accepted (.quasi ⟨[(0, -1), (1, 2)], none, none⟩) = true
    ∧ ((_validate_frequencies (.quasi ⟨[(0, -1), (1, 2)], none, none⟩)).map
        _reckon_frequencies_variance).toOption = some (-8)
    ∧ ((-8 : ℚ) < 0) := by
  refine ⟨rfl, ?_, by norm_num⟩
  have h1 : _validate_frequencies (.quasi ⟨[(0, -1), (1, 2)], none, none⟩)
      = .ok (convertCounts ⟨[(0, -1), (1, 2)]⟩) := rfl
  rw [h1]
  show some (_reckon_frequencies_variance (convertCounts ⟨[(0, -1), (1, 2)]⟩))
      = some (-8)
  refine congrArg some ?_
  have hd : (convertCounts ⟨[(0, -1), (1, 2)]⟩).dist = [(0, -1), (1, 2)] := by
    show [((0 : ℕ), (-1 : ℚ)), (1, 2)].map (fun kv =>
        (kv.1, kv.2 / (if Counts.shots ⟨[(0, -1), (1, 2)]⟩ = 0 then 1
          else Counts.shots ⟨[(0, -1), (1, 2)]⟩))) = [(0, -1), (1, 2)]
    have hs : Counts.shots ⟨[(0, -1), (1, 2)]⟩ = 1 := by
      simp [Counts.shots, dictTotal]
      norm_num
    rw [hs]
    norm_num
  have he : _reckon_frequencies_expval (convertCounts ⟨[(0, -1), (1, 2)]⟩) = -3 := by
    unfold _reckon_frequencies_expval
    rw [hd]
    have hpc0 : popCount 0 = 0 := by
      rw [popCount]
      simp
    have hpc1 : popCount 1 = 1 := by
      rw [popCount]
      norm_num [hpc0]
    have hp0 : parity_bit 0 true = 0 := by simp [parity_bit, hpc0]
    have hp1 : parity_bit 1 true = 1 := by simp [parity_bit, hpc1]
    simp [hp0, hp1]
    norm_num
  unfold _reckon_frequencies_variance
  rw [he]
  norm_num

/-! ## Claim C8: validation errors -/

theorem exbind_ok {α β : Type} (a : α) (k : α → Except PyError β) :
    (Except.ok a >>= k) = k a := rfl

theorem exbind_error {α β : Type} (e : PyError) (k : α → Except PyError β) :
    ((Except.error e : Except PyError α) >>= k) = .error e := rfl

theorem raisesTypeError_bind {α β : Type} (x : Except PyError α)
    (k : α → Except PyError β) (h : raisesTypeError x = true) :
    raisesTypeError (x >>= k) = true := by
  cases x with
  | ok a => simp [raisesTypeError] at h
  | error e => rw [exbind_error]; exact h

theorem validate_freq_error (f : PyFreq) (hf : f.accepted = false) :
    raisesTypeError (_validate_frequencies f) = true := by
  cases f with
  | counts c => simp [PyFreq.accepted] at hf
  | quasi q => simp [PyFreq.accepted] at hf
  | dict d =>
      have hw : rawDictWellTyped d = false := hf
      show raisesTypeError ((countsOfDict d).map convertCounts) = true
      unfold countsOfDict
      rw [hw]
      rfl
  | other => rfl

theorem validate_freq_ok (f : PyFreq) (hf : f.accepted = true) :
    ∃ q, _validate_frequencies f = .ok q := by
  cases f with
  | counts c => exact ⟨convertCounts c, rfl⟩
  | quasi q => exact ⟨convertCounts ⟨q.dist⟩, rfl⟩
  | dict d =>
      have hw : rawDictWellTyped d = true := hf
      refine ⟨convertCounts ⟨d.map fun kv => (kv.1.toNat, kv.2.toRat)⟩, ?_⟩
      show (countsOfDict d).map convertCounts = _
      unfold countsOfDict
      rw [hw]
      rfl
  | other => simp [PyFreq.accepted] at hf

theorem validate_op_error (o : PyOp) (ho : o.accepted = false) :
    raisesTypeError (_validate_operator o) = true := by
  cases o with
  | base op => simp [PyOp.accepted, normalize_operator] at ho
  | pauli p => simp [PyOp.accepted, normalize_operator] at ho
  | str p => simp [PyOp.accepted, normalize_operator] at ho
  | other => rfl

theorem validate_op_ok (o : PyOp) (ho : o.accepted = true) :
    ∃ sp, _validate_operator o = .ok sp := by
  cases o with
  | base op => exact ⟨op, rfl⟩
  | pauli p => exact ⟨⟨[p], [1]⟩, rfl⟩
  | str p => exact ⟨⟨[p], [1]⟩, rfl⟩
  | other => simp [PyOp.accepted, normalize_operator] at ho

theorem mapM_ok_of_all {α β : Type} (V : α → Except PyError β) (P : α → Bool)
    (hV : ∀ a, P a = true → ∃ b, V a = .ok b) (l : List α)
    (h : l.all P = true) :
    ∃ bs : List β, l.mapM V = .ok bs ∧ bs.length = l.length := by
  induction l with
  | nil => exact ⟨[], rfl, rfl⟩
  | cons a t ih =>
      rw [List.all_cons, Bool.and_eq_true] at h
      obtain ⟨b, hb⟩ := hV a h.1
      obtain ⟨bs, hbs, hlen⟩ := ih h.2
      refine ⟨b :: bs, ?_, by simp [hlen]⟩
      rw [List.mapM_cons, hb, exbind_ok, hbs]
      rfl

theorem mapM_raisesTypeError {α β : Type} (V : α → Except PyError β) (P : α → Bool)
    (hV : ∀ a, P a = true → ∃ b, V a = .ok b)
    (hVe : ∀ a, P a = false → raisesTypeError (V a) = true)
    (l : List α) (h : l.all P = false) :
    raisesTypeError (l.mapM V) = true := by
  induction l with
  | nil => simp at h
  | cons a t ih =>
      rw [List.all_cons, Bool.and_eq_false_iff] at h
      by_cases ha : P a = true
      · have ht : t.all P = false := by
          rcases h with h | h
          · rw [ha] at h; cases h
          · exact h
        obtain ⟨b, hb⟩ := hV a ha
        rw [List.mapM_cons, hb, exbind_ok]
        have hrec := ih ht
        cases hmt : t.mapM V with
        | ok bs => rw [hmt] at hrec; simp [raisesTypeError] at hrec
        | error e =>
            rw [hmt] at hrec
            rw [exbind_error]
            exact hrec
      · have ha' : P a = false := by simpa using ha
        have herr := hVe a ha'
        rw [List.mapM_cons]
        cases hva : V a with
        | ok b => rw [hva] at herr; simp [raisesTypeError] at herr
        | error e =>
            rw [hva] at herr
            rw [exbind_error]
            exact herr

theorem validate_freq_list_error (fi : PyFreqInput) (hfi : fi.accepted = false) :
    raisesTypeError (_validate_frequencies_list fi) = true := by
  cases fi with
  | single f =>
      cases f with
      | counts c => simp [PyFreqInput.accepted, PyFreq.accepted] at hfi
      | quasi q => simp [PyFreqInput.accepted, PyFreq.accepted] at hfi
      | dict d =>
          have hf : PyFreq.accepted (.dict d) = false := hfi
          show raisesTypeError ([PyFreq.dict d].mapM _validate_frequencies) = true
          exact mapM_raisesTypeError _ _ validate_freq_ok validate_freq_error _
            (by simp [hf])
      | other => rfl
  | seq fs =>
      exact mapM_raisesTypeError _ _ validate_freq_ok validate_freq_error _ hfi

theorem validate_freq_list_ok (fi : PyFreqInput) (hfi : fi.accepted = true) :
    ∃ l, _validate_frequencies_list fi = .ok l := by
  cases fi with
  | single f =>
      cases f with
      | counts c =>
          obtain ⟨l, hl, _⟩ := mapM_ok_of_all _ _ validate_freq_ok
            [PyFreq.counts c] (by simpa using hfi)
          exact ⟨l, hl⟩
      | quasi q =>
          obtain ⟨l, hl, _⟩ := mapM_ok_of_all _ _ validate_freq_ok
            [PyFreq.quasi q] (by simpa using hfi)
          exact ⟨l, hl⟩
      | dict d =>
          obtain ⟨l, hl, _⟩ := mapM_ok_of_all _ _ validate_freq_ok
            [PyFreq.dict d] (by simpa using hfi)
          exact ⟨l, hl⟩
      | other => simp [PyFreqInput.accepted, PyFreq.accepted] at hfi
  | seq fs =>
      obtain ⟨l, hl, _⟩ := mapM_ok_of_all _ _ validate_freq_ok fs hfi
      exact ⟨l, hl⟩

theorem validate_op_list_error (oi : PyOpInput) (hoi : oi.accepted = false) :
    raisesTypeError (_validate_operator_list oi) = true := by
  cases oi with
  | single o =>
      cases o with
      | base op => simp [PyOpInput.accepted, PyOp.accepted, normalize_operator] at hoi
      | pauli p => simp [PyOpInput.accepted, PyOp.accepted, normalize_operator] at hoi
      | str p => simp [PyOpInput.accepted, PyOp.accepted, normalize_operator] at hoi
      | other => rfl
  | seq os =>
      exact mapM_raisesTypeError _ _ validate_op_ok validate_op_error _ hoi

theorem validate_op_list_ok (oi : PyOpInput) (hoi : oi.accepted = true) :
    ∃ l, _validate_operator_list oi = .ok l := by
  cases oi with
  | single o =>
      cases o with
      | base op => exact ⟨[op], rfl⟩
      | pauli p => exact ⟨[⟨[p], [1]⟩], rfl⟩
      | str p => exact ⟨[⟨[p], [1]⟩], rfl⟩
      | other => simp [PyOpInput.accepted, PyOp.accepted, normalize_operator] at hoi
  | seq os =>
      obtain ⟨l, hl, _⟩ := mapM_ok_of_all _ _ validate_op_ok os hoi
      exact ⟨l, hl⟩

theorem validate_pauli_error (p : PyPauli) (hp : p.accepted = false) :
    raisesTypeError (_validate_pauli p) = true := by
  cases p with
  | pauli p => simp [PyPauli.accepted] at hp
  | str p => simp [PyPauli.accepted] at hp
  | other => rfl

theorem validate_pauli_ok (p : PyPauli) (hp : p.accepted = true) :
    ∃ t, _validate_pauli p = .ok t := by
  cases p with
  | pauli p => exact ⟨p, rfl⟩
  | str p => exact ⟨p, rfl⟩
  | other => simp [PyPauli.accepted] at hp

/-- Claim C8: every entry point raises a TypeError-class error on an
unsupported frequencies input (including a non-sequence where a sequence
is required) and on an unsupported operator or pauli input, with the
frequencies validated first; and reckon raises a ValueError-class error
when the (accepted) frequencies and operator lists have different lengths.
In this pure model, raising at validation time is returning the error:
no result is produced. -/
theorem c8_validation_errors :
    (∀ (fi : PyFreqInput) (oi : PyOpInput), fi.accepted = false →
        raisesTypeError (reckon fi oi) = true)
    ∧ (∀ (fi : PyFreqInput) (oi : PyOpInput), fi.accepted = true →
        oi.accepted = false → raisesTypeError (reckon fi oi) = true)
    ∧ (∀ (fs : List PyFreq) (os : List PyOp), fs.all PyFreq.accepted = true →
        os.all PyOp.accepted = true → fs.length ≠ os.length →
        raisesValueError (reckon (.seq fs) (.seq os)) = true)
    ∧ (∀ (f : PyFreq) (o : PyOp), f.accepted = false →
        raisesTypeError (reckon_operator f o) = true)
    ∧ (∀ (f : PyFreq) (o : PyOp), f.accepted = true → o.accepted = false →
        raisesTypeError (reckon_operator f o) = true)
    ∧ (∀ (f : PyFreq) (p : PyPauli), f.accepted = false →
        raisesTypeError (reckon_pauli f p) = true)
    ∧ (∀ (f : PyFreq) (p : PyPauli), f.accepted = true → p.accepted = false →
        raisesTypeError (reckon_pauli f p) = true)
    ∧ (∀ f : PyFreq, f.accepted = false →
        raisesTypeError (reckon_frequencies f) = true) := by
  refine ⟨?_, ?_, ?_, ?_, ?_, ?_, ?_, ?_⟩
  · intro fi oi hfi
    exact raisesTypeError_bind _ _ (validate_freq_list_error fi hfi)
  · intro fi oi hfi hoi
    obtain ⟨l, hl⟩ := validate_freq_list_ok fi hfi
    unfold reckon
    rw [hl, exbind_ok]
    exact raisesTypeError_bind _ _ (validate_op_list_error oi hoi)
  · intro fs os hfs hos hlen
    obtain ⟨l, hl, hllen⟩ := mapM_ok_of_all _ _ validate_freq_ok fs hfs
    obtain ⟨m, hm, hmlen⟩ := mapM_ok_of_all _ _ validate_op_ok os hos
    have hA : _validate_frequencies_list (.seq fs) = .ok l := hl
    have hB : _validate_operator_list (.seq os) = .ok m := hm
    unfold reckon
    rw [hA, exbind_ok, hB, exbind_ok]
    have hne : l.length ≠ m.length := by rw [hllen, hmlen]; exact hlen
    unfold _cross_validate_lists
    rw [if_pos hne, exbind_error]
    rfl
  · intro f o hf
    exact raisesTypeError_bind _ _ (validate_freq_error f hf)
  · intro f o hf ho
    obtain ⟨q, hq⟩ := validate_freq_ok f hf
    unfold reckon_operator
    rw [hq, exbind_ok]
    exact raisesTypeError_bind _ _ (validate_op_error o ho)
  · intro f p hf
    exact raisesTypeError_bind _ _ (validate_freq_error f hf)
  · intro f p hf hp
    obtain ⟨q, hq⟩ := validate_freq_ok f hf
    unfold reckon_pauli
    rw [hq, exbind_ok]
    exact raisesTypeError_bind _ _ (validate_pauli_error p hp)
  · intro f hf
    exact raisesTypeError_bind _ _ (validate_freq_error f hf)

/-- Witness for claim C8: a non-sequence unsupported frequencies input
raises a TypeError-class error, and accepted lists of mismatched lengths
raise a ValueError-class error. -/
theorem c8_validation_errors_witness :
    (PyFreqInput.accepted (.single .other) = false
      ∧ raisesTypeError (reckon (.single .other) (.single (.pauli ⟨[SQPauli.Z], 0⟩))) = true)
    ∧ ([PyFreq.dict []].all PyFreq.accepted = true
      ∧ ([] : List PyOp).all PyOp.accepted = true
      ∧ [PyFreq.dict []].length ≠ ([] : List PyOp).length
      ∧ raisesValueError (reckon (.seq [PyFreq.dict []]) (.seq [])) = true) :=
  ⟨⟨rfl, c8_validation_errors.1 (.single .other) (.single (.pauli ⟨[SQPauli.Z], 0⟩)) rfl⟩,
    ⟨rfl, rfl, by decide,
      c8_validation_errors.2.2.1 [PyFreq.dict []] [] rfl rfl (by decide)⟩⟩
